import Mathlib

/-!
Shallow embedding of the RLinAlg dense linear-algebra library (src/src/lib.rs).

A `Matrix` mirrors the source struct wrapping an `Array2<f64>`: the stored
dimensions together with an entry function (`data[[i,j]]` becomes `entry i j`);
entries outside the stored bounds play no role in any operation.  A `Vector`
mirrors the struct wrapping an `Array1<f64>` as a list of scalars, so that
length checks and the truncating behaviour of iterator `zip` are preserved.

Machine doubles are embedded as elements of a linear ordered field (the
theorems instantiate `ℚ` where the operation is exact arithmetic, and `ℝ`
where the source uses `sqrt`); IEEE rounding, infinities and NaN are outside
the model.  Fallible operations (`Result<_, String>` in the source) become
`Except String _`, carrying the exact error strings of the source.
-/

namespace RLinAlg

/-- Mirror of `struct Matrix { data: Array2<f64> }`: stored shape plus entry
lookup. -/
structure Matrix (α : Type) where
  rows : ℕ
  cols : ℕ
  entry : ℕ → ℕ → α

/-- Mirror of `struct Vector { data: Array1<f64> }`. -/
structure Vector (α : Type) where
  data : List α

variable {α : Type} [LinearOrderedField α]

/-- Mirror of `Vector::add` (lib.rs:279): a plain `zip`/`map`/`collect` over
the two data slices, with no length check; `zip` truncates to the shorter
slice. -/
def Vector.add (v w : Vector α) : Vector α :=
  ⟨List.zipWith (fun a b => a + b) v.data w.data⟩

/-- Mirror of `Matrix::multiply_vector` (lib.rs:236): length guard, then one
dot product per matrix row. -/
def Matrix.multiply_vector (A : Matrix α) (v : Vector α) : Except String (Vector α) :=
  if A.cols ≠ v.data.length then
    .error "Matrix and vector dimensions must match"
  else
    .ok ⟨(List.range A.rows).map fun i =>
      (List.zipWith (fun a b => a * b) ((List.range A.cols).map (A.entry i)) v.data).sum⟩

/-- Writing one computed row into a result grid at its row index
(`result.row_mut(i).assign(&partial.row(0))` in lib.rs:40). -/
def writeRow (f : ℕ → ℕ → α) (i : ℕ) (row : List α) : ℕ → ℕ → α :=
  fun r c => if r = i then row.getD c 0 else f r c

/-- Merging a list of index-tagged rows into a grid, one write per list item
(the merge loop of lib.rs:39-41). -/
def mergeRows (l : List (ℕ × List α)) (f : ℕ → ℕ → α) : ℕ → ℕ → α :=
  l.foldl (fun g p => writeRow g p.1 p.2) f

/-- The per-row products of `Matrix::multiply` (lib.rs:26-36): row `i` of the
output, each cell a sum over the inner dimension. -/
def Matrix.rowProducts (A B : Matrix α) : List (List α) :=
  (List.range A.rows).map fun i =>
    (List.range B.cols).map fun j =>
      ∑ k ∈ Finset.range A.cols, A.entry i k * B.entry k j

/-- Mirror of `Matrix::multiply` (lib.rs:17): inner-dimension guard, per-row
products, then a merge of the enumerated rows into a zero grid by row index. -/
def Matrix.multiply (A B : Matrix α) : Except String (Matrix α) :=
  if A.cols ≠ B.rows then
    .error "Inner matrix dimensions must match for multiplication"
  else
    .ok ⟨A.rows, B.cols, mergeRows (A.rowProducts B).enum fun _ _ => 0⟩

/-- Mirror of `Matrix::create_minor` (lib.rs:80): the entry at `(r, c)` of the
minor is the source entry with the excluded row and column skipped, relative
order preserved. -/
def create_minor (f : ℕ → ℕ → α) (row_to_exclude col_to_exclude : ℕ) : ℕ → ℕ → α :=
  fun r c =>
    f (if r < row_to_exclude then r else r + 1)
      (if c < col_to_exclude then c else c + 1)

/-- Mirror of `Matrix::calculate_determinant` (lib.rs:61), recursing on the
stored row count: a 1×1 grid returns its single entry, otherwise Laplace
expansion along row 0 with sign `(-1)^col` (the source's running `sign`
starts at `1.0` and flips each column). -/
def calculate_determinant : ℕ → (ℕ → ℕ → α) → α
  | 0, _ => 0
  | 1, f => f 0 0
  | n + 2, f =>
      ∑ col ∈ Finset.range (n + 2),
        (-1 : α) ^ col * f 0 col * calculate_determinant (n + 1) (create_minor f 0 col)

/-- Mirror of `Matrix::determinant` (lib.rs:52): `None` for a non-square
shape, otherwise the recursive cofactor expansion. -/
def Matrix.determinant (A : Matrix α) : Option α :=
  if A.rows ≠ A.cols then none
  else some (calculate_determinant A.rows A.entry)

/-- Mirror of the cofactor computed inside `Matrix::inverse` (lib.rs:139-141):
`det(minor(A,i,j)) * (-1)^(i+j)`. -/
def Matrix.cofactor (A : Matrix α) (i j : ℕ) : α :=
  calculate_determinant (A.rows - 1) (create_minor A.entry i j) * (-1 : α) ^ (i + j)

/-- Mirror of the adjugate grid built inside `Matrix::inverse` (lib.rs:147-150):
a zero grid receiving `adjugate[[j,i]] = cofactor(i,j)` for the in-range
cofactor list. -/
def Matrix.adjugate (A : Matrix α) : ℕ → ℕ → α :=
  fun p q => if p < A.rows ∧ q < A.cols then A.cofactor q p else 0

/-- Mirror of `Matrix::inverse` (lib.rs:122): square guard, determinant
(`unwrap_or(0.0)`), exact-zero singularity guard, then the adjugate grid
divided elementwise by the determinant. -/
def Matrix.inverse (A : Matrix α) : Except String (Matrix α) :=
  if A.rows ≠ A.cols then
    .error "Only square matrices can be inverted"
  else
    let det := (A.determinant).getD 0
    if det = 0 then
      .error "Matrix is not invertible"
    else
      .ok ⟨A.rows, A.cols, fun i j => A.adjugate i j / det⟩

/-- One pass of the outer elimination loop of `Matrix::lu_decomposition`
(lib.rs:166-180) at pivot row `i`: first the row of `upper` at `i` for
columns `i ≤ k < n`, then the unit diagonal and the column of `lower`
at `i` for rows `i < k < n`, reading the just-written `upper`. -/
def luIter (A : Matrix α) (n i : ℕ) :
    ((ℕ → ℕ → α) × (ℕ → ℕ → α)) → ((ℕ → ℕ → α) × (ℕ → ℕ → α)) :=
  fun LU =>
    let lower := LU.1
    let upper := LU.2
    let upper' : ℕ → ℕ → α := fun r k =>
      if r = i ∧ i ≤ k ∧ k < n then
        A.entry i k - ∑ j ∈ Finset.range i, lower i j * upper j k
      else upper r k
    let lower' : ℕ → ℕ → α := fun r c =>
      if r = i ∧ c = i then 1
      else if c = i ∧ i < r ∧ r < n then
        (A.entry r i - ∑ j ∈ Finset.range i, lower r j * upper' j i) / upper' i i
      else lower r c
    (lower', upper')

/-- The elimination loop of `Matrix::lu_decomposition` after the first `m`
pivot rows, starting from the two zero grids of lib.rs:163-164. -/
def luState (A : Matrix α) (n m : ℕ) : ((ℕ → ℕ → α) × (ℕ → ℕ → α)) :=
  (List.range m).foldl (fun s i => luIter A n i s) (fun _ _ => 0, fun _ _ => 0)

/-- Mirror of `Matrix::lu_decomposition` (lib.rs:157): square guard, two zero
grids, then the elimination loop over pivot rows `0..n`.  There is no zero-pivot
check. -/
def Matrix.lu_decomposition (A : Matrix α) : Except String (Matrix α × Matrix α) :=
  let n := A.rows
  if n ≠ A.cols then
    .error "Matrix must be square"
  else
    let LU := luState A n n
    .ok (⟨n, n, LU.1⟩, ⟨n, n, LU.2⟩)

/-- The absolute-value sum of row `i` (the mapped value inside
`Matrix::infinity_norm`, lib.rs:196). -/
def Matrix.rowAbsSum (A : Matrix α) (i : ℕ) : α :=
  ∑ j ∈ Finset.range A.cols, |A.entry i j|

/-- Mirror of `Matrix::infinity_norm` (lib.rs:193): the maximum of the per-row
absolute sums (`max_by` over the row axis), defaulting to `0.0` for a matrix
with no rows (`unwrap_or(0.0)`). -/
def Matrix.infinity_norm (A : Matrix α) : α :=
  (((List.range A.rows).map fun i => A.rowAbsSum i).max?).getD 0

/-- Mirror of `Vector::magnitude` (lib.rs:312): square root of the sum of
squares. -/
noncomputable def Vector.magnitude (v : Vector ℝ) : ℝ :=
  Real.sqrt (v.data.map fun x => x * x).sum

/-- Mirror of `Vector::normalize` (lib.rs:316): the vector unchanged when its
magnitude is exactly zero, otherwise every component divided by the
magnitude. -/
noncomputable def Vector.normalize (v : Vector ℝ) : Vector ℝ :=
  let mag := v.magnitude
  if mag = 0 then v
  else ⟨v.data.map fun x => x / mag⟩

open Classical in
/-- The loop of `Matrix::eigenvector` (lib.rs:210-220), fuelled by the number
of remaining iterations: multiply the iterate by the matrix (propagating its
failure), divide every component by the magnitude of the product
unconditionally, return the new iterate when every component of the
difference is below the tolerance, and fail once the fuel runs out. -/
noncomputable def eigLoop (A : Matrix ℝ) (tolerance : ℝ) :
    ℕ → Vector ℝ → Except String (Vector ℝ)
  | 0, _ => .error "Power iteration did not converge"
  | fuel + 1, b_k =>
    match A.multiply_vector b_k with
    | .error e => .error e
    | .ok prod =>
      let norm := prod.magnitude
      let b_k1 : Vector ℝ := ⟨prod.data.map fun x => x / norm⟩
      if ∀ x ∈ List.zipWith (fun a b => a - b) b_k1.data b_k.data, |x| < tolerance then
        .ok b_k1
      else eigLoop A tolerance fuel b_k1

/-- Mirror of `Matrix::eigenvector` (lib.rs:205): power iteration from the
all-ones vector of length `rows`, for at most `max_iters` transitions. -/
noncomputable def Matrix.eigenvector (A : Matrix ℝ) (max_iters : ℕ) (tolerance : ℝ) :
    Except String (Vector ℝ) :=
  eigLoop A tolerance max_iters ⟨List.replicate A.rows 1⟩

open Classical in
/-- Modelled from the spec, §4.6: one transition of the power-iteration state
machine, `b_{k+1} = normalize(A · b_k)` with the zero-safe `normalize` of
§4.2, failure of the multiply propagated; `Converged` when every component of
`|b_{k+1} − b_k|` is below the tolerance, `NotConverged` when the fuel is
exhausted. -/
noncomputable def powerIterLoop (A : Matrix ℝ) (tolerance : ℝ) :
    ℕ → Vector ℝ → Except String (Vector ℝ)
  | 0, _ => .error "Power iteration did not converge"
  | fuel + 1, b_k =>
    match A.multiply_vector b_k with
    | .error e => .error e
    | .ok prod =>
      let b_k1 := prod.normalize
      if ∀ x ∈ List.zipWith (fun a b => a - b) b_k1.data b_k.data, |x| < tolerance then
        .ok b_k1
      else powerIterLoop A tolerance fuel b_k1

/-- Modelled from the spec, §4.6: the whole state machine, started at the
all-ones vector of length `rows`, with `max_iters` available transitions. -/
noncomputable def powerIteration (A : Matrix ℝ) (max_iters : ℕ) (tolerance : ℝ) :
    Except String (Vector ℝ) :=
  powerIterLoop A tolerance max_iters ⟨List.replicate A.rows 1⟩

mutual

/-- The Doolittle value of `U[i,k]` as a closed recurrence:
`U[i,k] = A[i,k] − Σ_{j<i} L[i,j]·U[j,k]`. -/
def dooU (A : Matrix α) (i k : ℕ) : α :=
  A.entry i k - ∑ j ∈ (Finset.range i).attach, dooL A i j.1 * dooU A j.1 k
termination_by 2 * i
decreasing_by
  all_goals have hj := Finset.mem_range.mp j.2
  all_goals omega

/-- The Doolittle value of `L[k,i]` as a closed recurrence: `1` on the
diagonal, `L[k,i] = (A[k,i] − Σ_{j<i} L[k,j]·U[j,i]) / U[i,i]` below it. -/
def dooL (A : Matrix α) (k i : ℕ) : α :=
  if k = i then 1
  else (A.entry k i - ∑ j ∈ (Finset.range i).attach, dooL A k j.1 * dooU A j.1 i) / dooU A i i
termination_by 2 * i + 1
decreasing_by
  · have hj := Finset.mem_range.mp j.2; omega
  · have hj := Finset.mem_range.mp j.2; omega
  · omega

end

/-- Unfolding `dooU` with the membership proofs erased from the sum. -/
lemma dooU_eq (A : Matrix α) (i k : ℕ) :
    dooU A i k = A.entry i k - ∑ j ∈ Finset.range i, dooL A i j * dooU A j k := by
  conv_lhs => unfold dooU
  rw [Finset.sum_attach (Finset.range i) (fun j => dooL A i j * dooU A j k)]

/-- Unfolding `dooL` off the diagonal with the membership proofs erased. -/
lemma dooL_eq (A : Matrix α) (k i : ℕ) (h : k ≠ i) :
    dooL A k i =
      (A.entry k i - ∑ j ∈ Finset.range i, dooL A k j * dooU A j i) / dooU A i i := by
  conv_lhs => unfold dooL
  rw [if_neg h, Finset.sum_attach (Finset.range i) (fun j => dooL A k j * dooU A j i)]

/-- `dooL` is `1` on the diagonal. -/
lemma dooL_self (A : Matrix α) (i : ℕ) : dooL A i i = 1 := by
  conv_lhs => unfold dooL
  rw [if_pos rfl]

/-- Invariant of the elimination loop: after the first `m` pivot rows, the
`upper` grid holds the Doolittle values on rows `< m` at or right of the
diagonal and zeros elsewhere, and the `lower` grid holds the Doolittle values
on columns `< m` at or below the diagonal and zeros elsewhere. -/
lemma luState_invariant (A : Matrix α) (n : ℕ) :
    ∀ m, m ≤ n →
      (∀ r k, (luState A n m).2 r k =
        if r < m ∧ r ≤ k ∧ k < n then dooU A r k else 0) ∧
      (∀ r c, (luState A n m).1 r c =
        if c < m ∧ c ≤ r ∧ r < n then dooL A r c else 0)
  | 0, _ => by
      constructor <;> intro r c <;>
        simp [luState, List.range_zero]
  | m + 1, hm => by
      obtain ⟨ihU, ihL⟩ := luState_invariant A n m (Nat.le_of_succ_le hm)
      have hmn : m < n := hm
      have hstep : luState A n (m + 1) = luIter A n m (luState A n m) := by
        rw [luState, luState, List.range_succ, List.foldl_append, List.foldl_cons,
          List.foldl_nil]
      -- the value written into row `m` of `upper` is the Doolittle value
      have hUrow : ∀ k, m ≤ k → k < n →
          A.entry m k - ∑ j ∈ Finset.range m,
              (luState A n m).1 m j * (luState A n m).2 j k = dooU A m k := by
        intro k hmk hkn
        rw [dooU_eq]
        congr 1
        refine Finset.sum_congr rfl fun j hj => ?_
        have hjm : j < m := Finset.mem_range.mp hj
        rw [ihL m j, ihU j k, if_pos ⟨hjm, Nat.le_of_lt hjm, hmn⟩,
          if_pos ⟨hjm, Nat.le_trans (Nat.le_of_lt hjm) hmk, hkn⟩]
      constructor
      · intro r k
        rw [hstep]
        show (if r = m ∧ m ≤ k ∧ k < n then
            A.entry m k - ∑ j ∈ Finset.range m,
              (luState A n m).1 m j * (luState A n m).2 j k
          else (luState A n m).2 r k) = _
        by_cases hc : r = m ∧ m ≤ k ∧ k < n
        · obtain ⟨hrm, hmk, hkn⟩ := hc
          rw [if_pos (show r = m ∧ m ≤ k ∧ k < n from ⟨hrm, hmk, hkn⟩),
            hUrow k hmk hkn, hrm,
            if_pos (show m < m + 1 ∧ m ≤ k ∧ k < n from ⟨Nat.lt_succ_self m, hmk, hkn⟩)]
        · rw [if_neg hc, ihU r k]
          have hiff : (r < m ∧ r ≤ k ∧ k < n) ↔ (r < m + 1 ∧ r ≤ k ∧ k < n) := by omega
          simp only [hiff]
      · intro r c
        rw [hstep]
        show (if r = m ∧ c = m then 1
          else if c = m ∧ m < r ∧ r < n then
            (A.entry r m - ∑ j ∈ Finset.range m,
                (luState A n m).1 r j *
                  (if j = m ∧ m ≤ m ∧ m < n then
                    A.entry m m - ∑ j' ∈ Finset.range m,
                      (luState A n m).1 m j' * (luState A n m).2 j' m
                  else (luState A n m).2 j m)) /
              (if m = m ∧ m ≤ m ∧ m < n then
                A.entry m m - ∑ j' ∈ Finset.range m,
                  (luState A n m).1 m j' * (luState A n m).2 j' m
              else (luState A n m).2 m m)
          else (luState A n m).1 r c) = _
        by_cases hd : r = m ∧ c = m
        · obtain ⟨hrm, hcm⟩ := hd
          rw [if_pos (show r = m ∧ c = m from ⟨hrm, hcm⟩), hrm, hcm,
            if_pos (show m < m + 1 ∧ m ≤ m ∧ m < n from
              ⟨Nat.lt_succ_self m, Nat.le_refl m, hmn⟩),
            dooL_self]
        · rw [if_neg hd]
          by_cases he : c = m ∧ m < r ∧ r < n
          · obtain ⟨hcm, hmr, hrn⟩ := he
            rw [if_pos ⟨hcm, hmr, hrn⟩]
            have hdiag : (if m = m ∧ m ≤ m ∧ m < n then
                A.entry m m - ∑ j' ∈ Finset.range m,
                  (luState A n m).1 m j' * (luState A n m).2 j' m
              else (luState A n m).2 m m) = dooU A m m := by
              rw [if_pos ⟨rfl, Nat.le_refl m, hmn⟩, hUrow m (Nat.le_refl m) hmn]
            rw [hdiag, hcm, if_pos ⟨Nat.lt_succ_self m, Nat.le_of_lt hmr, hrn⟩,
              dooL_eq A r m (Nat.ne_of_gt hmr)]
            congr 2
            refine Finset.sum_congr rfl fun j hj => ?_
            have hjm : j < m := Finset.mem_range.mp hj
            have hjne : ¬(j = m ∧ m ≤ m ∧ m < n) := fun h => absurd h.1 (Nat.ne_of_lt hjm)
            rw [if_neg hjne, ihL r j, ihU j m,
              if_pos ⟨hjm, Nat.le_of_lt (Nat.lt_trans hjm hmr), hrn⟩,
              if_pos ⟨hjm, Nat.le_of_lt hjm, hmn⟩]
          · rw [if_neg he, ihL r c]
            have hiff : (c < m ∧ c ≤ r ∧ r < n) ↔ (c < m + 1 ∧ c ≤ r ∧ r < n) := by
              omega
            simp only [hiff]

/-- A merge never touches a row index absent from the list. -/
lemma mergeRows_not_mem (l : List (ℕ × List α)) (f : ℕ → ℕ → α) (r c : ℕ)
    (h : r ∉ l.map Prod.fst) : mergeRows l f r c = f r c := by
  induction l generalizing f with
  | nil => rfl
  | cons p t ih =>
    have hne : r ≠ p.1 := fun he => h (by simp [he])
    have ht : r ∉ t.map Prod.fst := fun hm => h (by simp [hm])
    show mergeRows t (writeRow f p.1 p.2) r c = f r c
    rw [ih _ ht, writeRow, if_neg hne]

/-- When the row indices of the list are distinct, the merge writes each
listed row at its index. -/
lemma mergeRows_mem (l : List (ℕ × List α)) (f : ℕ → ℕ → α) (i : ℕ) (row : List α)
    (c : ℕ) (hnd : (l.map Prod.fst).Nodup) (hmem : (i, row) ∈ l) :
    mergeRows l f i c = row.getD c 0 := by
  induction l generalizing f with
  | nil => exact absurd hmem (List.not_mem_nil _)
  | cons p t ih =>
    rw [List.map_cons] at hnd
    have hh := List.nodup_cons.mp hnd
    rcases List.mem_cons.mp hmem with hp | ht
    · have hpi : p.1 = i := by rw [← hp]
      have hfst : i ∉ t.map Prod.fst := by
        rw [← hpi]
        exact hh.1
      show mergeRows t (writeRow f p.1 p.2) i c = row.getD c 0
      rw [mergeRows_not_mem t _ i c hfst, ← hp]
      simp [writeRow]
    · show mergeRows t (writeRow f p.1 p.2) i c = row.getD c 0
      exact ih _ hh.2 ht

/-- Merging index-distinct rows is order-insensitive: any permutation of the
list of tagged rows produces the same grid. -/
lemma mergeRows_perm (l l' : List (ℕ × List α)) (f : ℕ → ℕ → α)
    (hnd : (l.map Prod.fst).Nodup) (hp : l.Perm l') (r c : ℕ) :
    mergeRows l f r c = mergeRows l' f r c := by
  have hnd' : (l'.map Prod.fst).Nodup := ((hp.map Prod.fst).nodup_iff).mp hnd
  by_cases hr : r ∈ l.map Prod.fst
  · obtain ⟨p, hpl, hfst⟩ := List.mem_map.mp hr
    have hpair : (r, p.2) ∈ l := by
      have : p = (r, p.2) := by
        cases p
        simpa using hfst
      rwa [this] at hpl
    rw [mergeRows_mem l f r p.2 c hnd hpair,
      mergeRows_mem l' f r p.2 c hnd' (hp.subset hpair)]
  · have hr' : r ∉ l'.map Prod.fst := fun hm => hr ((hp.map Prod.fst).mem_iff.mpr hm)
    rw [mergeRows_not_mem l f r c hr, mergeRows_not_mem l' f r c hr']

/-- A list sum of squares vanishes only when every element vanishes. -/
lemma eq_zero_of_sq_sum_eq_zero {l : List ℝ} (h : (l.map fun x => x * x).sum = 0) :
    ∀ x ∈ l, x = 0 := by
  induction l with
  | nil => intro x hx; exact absurd hx (List.not_mem_nil x)
  | cons a t ih =>
    rw [List.map_cons, List.sum_cons] at h
    have hrest : 0 ≤ (t.map fun x => x * x).sum :=
      List.sum_nonneg fun x hx => by
        obtain ⟨y, _, rfl⟩ := List.mem_map.mp hx
        exact mul_self_nonneg y
    have hzero := (add_eq_zero_iff_of_nonneg (mul_self_nonneg a) hrest).mp h
    intro x hx
    rcases List.mem_cons.mp hx with rfl | hxt
    · exact mul_self_eq_zero.mp hzero.1
    · exact ih hzero.2 x hxt

/-- The magnitude of a vector is zero exactly when every component is zero. -/
lemma Vector.magnitude_eq_zero_iff (v : Vector ℝ) :
    v.magnitude = 0 ↔ ∀ x ∈ v.data, x = 0 := by
  have hnn : 0 ≤ (v.data.map fun x => x * x).sum :=
    List.sum_nonneg fun x hx => by
      obtain ⟨y, _, rfl⟩ := List.mem_map.mp hx
      exact mul_self_nonneg y
  constructor
  · intro h
    have hsum : (v.data.map fun x => x * x).sum = 0 :=
      le_antisymm (Real.sqrt_eq_zero'.mp h) hnn
    exact eq_zero_of_sq_sum_eq_zero hsum
  · intro h
    have hsum : (v.data.map fun x => x * x).sum = 0 :=
      List.sum_eq_zero fun x hx => by
        obtain ⟨y, hy, rfl⟩ := List.mem_map.mp hx
        rw [h y hy, mul_zero]
    rw [Vector.magnitude, hsum, Real.sqrt_zero]

/-- Over the reals, the unconditional division performed inside the power
iteration (lib.rs:214) agrees with the zero-safe `Vector::normalize`: a zero
magnitude forces a zero vector, whose components are unchanged by the
division. -/
lemma map_div_magnitude_eq_normalize (v : Vector ℝ) :
    (⟨v.data.map fun x => x / v.magnitude⟩ : Vector ℝ) = v.normalize := by
  rw [Vector.normalize]
  by_cases h : v.magnitude = 0
  · rw [if_pos h]
    have : ∀ x ∈ v.data, x / v.magnitude = x := fun x hx => by
      rw [(v.magnitude_eq_zero_iff).mp h x hx, zero_div]
    congr 1
    calc v.data.map (fun x => x / v.magnitude)
        = v.data.map id := List.map_congr_left this
      _ = v.data := List.map_id v.data
  · rw [if_neg h]

/-- The iteration loop of the source equals the spec-side state machine: the
only difference, unconditional division versus zero-safe normalisation, is
invisible over the reals. -/
lemma eigLoop_eq_powerIterLoop (A : Matrix ℝ) (tolerance : ℝ) :
    ∀ fuel b, eigLoop A tolerance fuel b = powerIterLoop A tolerance fuel b := by
  intro fuel
  induction fuel with
  | zero => intro b; rfl
  | succ n ih =>
    intro b
    simp only [eigLoop, powerIterLoop]
    cases hmv : A.multiply_vector b with
    | error e => rfl
    | ok prod =>
      dsimp only
      have hdata : (List.map (fun x => x / prod.magnitude) prod.data) = prod.normalize.data := by
        rw [← map_div_magnitude_eq_normalize prod]
      rw [hdata]
      by_cases hc : ∀ x ∈ List.zipWith (fun a b => a - b) prod.normalize.data b.data,
          |x| < tolerance
      · rw [if_pos hc, if_pos hc]
      · rw [if_neg hc, if_neg hc, ih]

/-- Reading a mapped range list at an in-range index. -/
lemma getD_map_range (g : ℕ → α) (m j : ℕ) (h : j < m) :
    ((List.range m).map g).getD j 0 = g j := by
  rw [List.getD_eq_getElem?_getD, List.getElem?_map, List.getElem?_range h,
    Option.map_some', Option.getD_some]

/-- C2: `determinant` returns `none` for every non-square matrix; for a square
matrix it returns the single entry when the matrix is 1×1, and otherwise the
Laplace expansion along row 0, `det = Σ_col (-1)^col · A[0,col] ·
det(minor(A,0,col))` with the sign starting at `+1` for column 0, the minor
omitting row 0 and column `col` while preserving the relative order of the
remaining rows and columns. -/
theorem determinant_spec (A : Matrix α) :
    (A.rows ≠ A.cols → A.determinant = none) ∧
    (A.rows = A.cols → A.rows = 1 → A.determinant = some (A.entry 0 0)) ∧
    (A.rows = A.cols → 2 ≤ A.rows →
      A.determinant = some (∑ col ∈ Finset.range A.rows,
        (-1 : α) ^ col * A.entry 0 col *
          calculate_determinant (A.rows - 1) (create_minor A.entry 0 col))) ∧
    (∀ col r c, create_minor A.entry 0 col r c =
      A.entry (r + 1) (if c < col then c else c + 1)) := by
  refine ⟨?_, ?_, ?_, ?_⟩
  · intro h
    simp only [Matrix.determinant]
    rw [if_pos h]
  · intro hsq h1
    simp only [Matrix.determinant]
    rw [if_neg (not_ne_iff.mpr hsq), h1]
    rfl
  · intro hsq h2
    obtain ⟨n, hn⟩ : ∃ n, A.rows = n + 2 := ⟨A.rows - 2, by omega⟩
    simp only [Matrix.determinant]
    rw [if_neg (not_ne_iff.mpr hsq), hn]
    rfl
  · intro col r c
    simp [create_minor]

/-- C3: `inverse` fails with the `NotSquare` error for every non-square
matrix, fails with the `Singular` error exactly when the square matrix's
cofactor-expansion determinant is exactly zero, and fails in no other case;
on success `inverse[i,j] = adjugate[i,j] / det`, where the adjugate is the
transposed cofactor grid, `adjugate[j,i] = det(minor(A,i,j)) · (-1)^(i+j)`. -/
theorem inverse_spec (A : Matrix α) :
    (A.rows ≠ A.cols → A.inverse = .error "Only square matrices can be inverted") ∧
    (A.rows = A.cols → calculate_determinant A.rows A.entry = 0 →
      A.inverse = .error "Matrix is not invertible") ∧
    (A.rows = A.cols → calculate_determinant A.rows A.entry ≠ 0 →
      ∃ B, A.inverse = .ok B ∧ B.rows = A.rows ∧ B.cols = A.cols ∧
        (∀ i j, B.entry i j = A.adjugate i j / calculate_determinant A.rows A.entry) ∧
        (∀ i j, i < A.rows → j < A.cols →
          A.adjugate j i =
            calculate_determinant (A.rows - 1) (create_minor A.entry i j) *
              (-1 : α) ^ (i + j))) := by
  have hdet : A.rows = A.cols → (A.determinant).getD 0 = calculate_determinant A.rows A.entry := by
    intro hsq
    simp only [Matrix.determinant]
    rw [if_neg (not_ne_iff.mpr hsq), Option.getD_some]
  refine ⟨?_, ?_, ?_⟩
  · intro h
    simp only [Matrix.inverse]
    rw [if_pos h]
  · intro hsq h0
    simp only [Matrix.inverse]
    rw [if_neg (not_ne_iff.mpr hsq), hdet hsq, if_pos h0]
  · intro hsq h0
    refine ⟨⟨A.rows, A.cols,
        fun i j => A.adjugate i j / calculate_determinant A.rows A.entry⟩, ?_, rfl, rfl,
      fun i j => rfl, ?_⟩
    · simp only [Matrix.inverse]
      rw [if_neg (not_ne_iff.mpr hsq), hdet hsq, if_neg h0]
    · intro i j hi hj
      simp only [Matrix.adjugate]
      rw [if_pos (by omega : j < A.rows ∧ i < A.cols)]
      rfl

/-- C4: `lu_decomposition` fails with the `NotSquare` error for every
non-square matrix, and for every square matrix succeeds (no typed zero-pivot
failure) returning `L` unit-lower-triangular and `U` upper-triangular
satisfying the Doolittle recurrences `U[i,k] = A[i,k] − Σ_{j<i} L[i,j]·U[j,k]`
for `k ≥ i` and `L[k,i] = (A[k,i] − Σ_{j<i} L[k,j]·U[j,i]) / U[i,i]` for
`k > i`. -/
theorem lu_decomposition_spec (A : Matrix α) :
    (A.rows ≠ A.cols → A.lu_decomposition = .error "Matrix must be square") ∧
    (A.rows = A.cols → ∃ L U, A.lu_decomposition = .ok (L, U) ∧
      L.rows = A.rows ∧ L.cols = A.rows ∧ U.rows = A.rows ∧ U.cols = A.rows ∧
      (∀ i, i < A.rows → L.entry i i = 1) ∧
      (∀ i j, i < A.rows → j < A.rows → i < j → L.entry i j = 0) ∧
      (∀ i j, i < A.rows → j < A.rows → j < i → U.entry i j = 0) ∧
      (∀ i k, i < A.rows → k < A.rows → i ≤ k →
        U.entry i k = A.entry i k - ∑ j ∈ Finset.range i, L.entry i j * U.entry j k) ∧
      (∀ i k, i < A.rows → k < A.rows → i < k →
        L.entry k i = (A.entry k i - ∑ j ∈ Finset.range i, L.entry k j * U.entry j i)
          / U.entry i i)) := by
  refine ⟨?_, ?_⟩
  · intro h
    simp only [Matrix.lu_decomposition]
    rw [if_pos h]
  · intro hsq
    obtain ⟨hU, hL⟩ := luState_invariant A A.rows A.rows (le_refl A.rows)
    refine ⟨⟨A.rows, A.rows, (luState A A.rows A.rows).1⟩,
      ⟨A.rows, A.rows, (luState A A.rows A.rows).2⟩, ?_, rfl, rfl, rfl, rfl, ?_, ?_, ?_, ?_, ?_⟩
    · simp only [Matrix.lu_decomposition]
      rw [if_neg (not_ne_iff.mpr hsq)]
    · intro i hi
      show (luState A A.rows A.rows).1 i i = 1
      rw [hL i i, if_pos ⟨hi, le_refl i, hi⟩, dooL_self]
    · intro i j hi hj hij
      show (luState A A.rows A.rows).1 i j = 0
      rw [hL i j, if_neg (by omega)]
    · intro i j hi hj hji
      show (luState A A.rows A.rows).2 i j = 0
      rw [hU i j, if_neg (by omega)]
    · intro i k hi hk hik
      show (luState A A.rows A.rows).2 i k = A.entry i k -
        ∑ j ∈ Finset.range i,
          (luState A A.rows A.rows).1 i j * (luState A A.rows A.rows).2 j k
      rw [hU i k, if_pos ⟨hi, hik, hk⟩, dooU_eq]
      congr 1
      refine Finset.sum_congr rfl fun j hj => ?_
      have hjlt := Finset.mem_range.mp hj
      rw [hL i j, if_pos (by omega : j < A.rows ∧ j ≤ i ∧ i < A.rows),
        hU j k, if_pos (by omega : j < A.rows ∧ j ≤ k ∧ k < A.rows)]
    · intro i k hi hk hik
      show (luState A A.rows A.rows).1 k i = (A.entry k i -
          ∑ j ∈ Finset.range i,
            (luState A A.rows A.rows).1 k j * (luState A A.rows A.rows).2 j i)
        / (luState A A.rows A.rows).2 i i
      rw [hL k i, if_pos (by omega : i < A.rows ∧ i ≤ k ∧ k < A.rows),
        dooL_eq A k i (by omega), hU i i, if_pos ⟨hi, le_refl i, hi⟩]
      congr 2
      refine Finset.sum_congr rfl fun j hj => ?_
      have hjlt := Finset.mem_range.mp hj
      rw [hL k j, if_pos (by omega : j < A.rows ∧ j ≤ k ∧ k < A.rows),
        hU j i, if_pos (by omega : j < A.rows ∧ j ≤ i ∧ i < A.rows)]

/-- C5 counterexample: on vectors of different lengths, `Vector.add` does not
fail — there is no `DimensionMismatch` check at all — it returns the
elementwise sum truncated to the shorter length. -/
theorem vector_add_mismatch_counterexample :
    (Vector.add (⟨[1]⟩ : Vector ℚ) ⟨[2, 3]⟩).data = [3] ∧
    ((⟨[1]⟩ : Vector ℚ)).data.length ≠ ((⟨[2, 3]⟩ : Vector ℚ)).data.length := by
  constructor
  · show List.zipWith (fun a b => a + b) [(1 : ℚ)] [2, 3] = [3]
    norm_num
  · decide

/-- C5 (amended): `Vector.add` is total: it never fails; its result is the
elementwise sum over the zipped data, whose length is the minimum of the two
lengths (so the full elementwise sum when the lengths match, truncation to
the shorter vector otherwise). -/
theorem vector_add_spec (v w : Vector α) :
    (Vector.add v w).data.length = min v.data.length w.data.length ∧
    ∀ i, i < (Vector.add v w).data.length →
      (Vector.add v w).data.getD i 0 = v.data.getD i 0 + w.data.getD i 0 := by
  constructor
  · simp only [Vector.add]
    exact List.length_zipWith _ v.data w.data
  · intro i hi
    simp only [Vector.add] at hi ⊢
    have hlen := List.length_zipWith (fun a b => a + b) v.data w.data
    have hiv : i < v.data.length := by omega
    have hiw : i < w.data.length := by omega
    rw [List.getD_eq_getElem _ 0 hi, List.getElem_zipWith,
      List.getD_eq_getElem v.data 0 hiv, List.getD_eq_getElem w.data 0 hiw]

/-- C6: `multiply` fails with the `DimensionMismatch` error exactly when the
inner dimensions differ; otherwise it returns an `A.rows × B.cols` matrix in
which cell `[i,j]` is `Σ_k A[i,k]·B[k,j]`, and the merge of the per-row
results into the output is by row index, giving the same grid for every
evaluation order of the rows. -/
theorem multiply_spec (A B : Matrix α) :
    (A.cols ≠ B.rows →
      A.multiply B = .error "Inner matrix dimensions must match for multiplication") ∧
    (A.cols = B.rows → ∃ C, A.multiply B = .ok C ∧ C.rows = A.rows ∧ C.cols = B.cols ∧
      (∀ i j, i < A.rows → j < B.cols →
        C.entry i j = ∑ k ∈ Finset.range A.cols, A.entry i k * B.entry k j) ∧
      (∀ l, l.Perm (A.rowProducts B).enum →
        ∀ r c, mergeRows l (fun _ _ => 0) r c = C.entry r c)) := by
  refine ⟨?_, ?_⟩
  · intro h
    simp only [Matrix.multiply]
    rw [if_pos h]
  · intro h
    refine ⟨⟨A.rows, B.cols, mergeRows (A.rowProducts B).enum fun _ _ => 0⟩, ?_, rfl, rfl,
      ?_, ?_⟩
    · simp only [Matrix.multiply]
      rw [if_neg (not_ne_iff.mpr h)]
    · intro i j hi hj
      show mergeRows (A.rowProducts B).enum (fun _ _ => 0) i j = _
      have hrow : (i, (List.range B.cols).map fun c =>
          ∑ k ∈ Finset.range A.cols, A.entry i k * B.entry k c) ∈ (A.rowProducts B).enum := by
        apply List.mem_enum_iff_getElem?.mpr
        show (A.rowProducts B)[i]? = _
        simp only [Matrix.rowProducts]
        rw [List.getElem?_map, List.getElem?_range hi, Option.map_some']
      rw [mergeRows_mem _ _ i _ j (List.nodup_enum_map_fst _) hrow,
        getD_map_range _ _ _ hj]
    · intro l hperm r c
      have hnd : (l.map Prod.fst).Nodup :=
        ((hperm.map Prod.fst).nodup_iff).mpr (List.nodup_enum_map_fst _)
      exact mergeRows_perm l _ _ hnd hperm r c

/-- C7: `normalize` returns the vector of components `v[i] / magnitude(v)`;
when the magnitude is exactly zero it returns the original vector unchanged,
never failing or dividing by zero (over the reals a zero magnitude forces all
components to zero, so the componentwise description holds in every case). -/
theorem normalize_spec (v : Vector ℝ) :
    v.normalize.data.length = v.data.length ∧
    (∀ i, i < v.data.length →
      v.normalize.data.getD i 0 = v.data.getD i 0 / v.magnitude) ∧
    (v.magnitude = 0 → v.normalize = v) := by
  by_cases h : v.magnitude = 0
  · have hnv : v.normalize = v := by
      simp only [Vector.normalize]
      rw [if_pos h]
    refine ⟨by rw [hnv], ?_, fun _ => hnv⟩
    intro i hi
    rw [hnv, h, div_zero]
    have hmem : v.data.getD i 0 ∈ v.data := by
      rw [List.getD_eq_getElem v.data 0 hi]
      exact List.getElem_mem hi
    exact (v.magnitude_eq_zero_iff).mp h _ hmem
  · have hnv : v.normalize = ⟨v.data.map fun x => x / v.magnitude⟩ := by
      simp only [Vector.normalize]
      rw [if_neg h]
    refine ⟨by rw [hnv]; simp, ?_, fun h0 => absurd h0 h⟩
    intro i hi
    have hlen : i < (v.data.map fun x => x / v.magnitude).length := by simpa using hi
    rw [hnv]
    show (v.data.map fun x => x / v.magnitude).getD i 0 = _
    rw [List.getD_eq_getElem _ 0 hlen, List.getElem_map, List.getD_eq_getElem v.data 0 hi]

/-- C8: `infinity_norm` is total — in the embedding it always returns a value
— and that value is the maximum over the rows of the row's sum of absolute
values, with `0` returned as the safe default when the matrix has no rows. -/
theorem infinity_norm_spec (A : Matrix α) :
    (A.rows = 0 → A.infinity_norm = 0) ∧
    (0 < A.rows →
      (∃ i, i < A.rows ∧ A.infinity_norm = A.rowAbsSum i) ∧
      (∀ i, i < A.rows → A.rowAbsSum i ≤ A.infinity_norm)) := by
  constructor
  · intro h
    simp [Matrix.infinity_norm, h]
  · intro h
    have hne : ((List.range A.rows).map fun i => A.rowAbsSum i) ≠ [] := by
      intro hemp
      have := congrArg List.length hemp
      simp at this
      omega
    cases hm : ((List.range A.rows).map fun i => A.rowAbsSum i).max? with
    | none => exact absurd (List.max?_eq_none_iff.mp hm) hne
    | some m =>
      have hm2 : m ∈ ((List.range A.rows).map fun i => A.rowAbsSum i) ∧
          ∀ a ∈ (List.range A.rows).map fun i => A.rowAbsSum i, a ≤ m := by
        have hAnti : Std.Antisymm (α := α) (· ≤ ·) := ⟨fun hab hba => le_antisymm hab hba⟩
        rw [List.max?_eq_some_iff] at hm
        · exact hm
        all_goals simp [le_total]
      have hnorm : A.infinity_norm = m := by
        simp only [Matrix.infinity_norm]
        rw [hm, Option.getD_some]
      constructor
      · obtain ⟨i, hi, hval⟩ := List.mem_map.mp hm2.1
        exact ⟨i, List.mem_range.mp hi, by rw [hnorm, ← hval]⟩
      · intro i hi
        have hmem : A.rowAbsSum i ∈ (List.range A.rows).map fun i => A.rowAbsSum i :=
          List.mem_map_of_mem _ (List.mem_range.mpr hi)
        rw [hnorm]
        exact hm2.2 _ hmem

/-- C1: `eigenvector` is exactly the spec's power-iteration state machine —
start at the all-ones vector of length `rows`, transition
`b_{k+1} = normalize(A · b_k)` with the zero-safe normalisation, return the
new iterate as soon as every component of `|b_{k+1} − b_k|` is below the
tolerance, and surface the `NonConvergence` failure after `max_iters`
transitions without convergence. -/
theorem eigenvector_is_power_iteration (A : Matrix ℝ) (max_iters : ℕ) (tolerance : ℝ) :
    A.eigenvector max_iters tolerance = powerIteration A max_iters tolerance := by
  simp only [Matrix.eigenvector, powerIteration]
  exact eigLoop_eq_powerIterLoop A tolerance max_iters _

/-- C9: with `max_iters = 0` the solver returns the `NonConvergence` failure
for every matrix and every tolerance — the loop body (and hence any
matrix–vector multiplication) is never entered, even when the all-ones
iterate would satisfy the convergence test after one step. -/
theorem eigenvector_zero_iters (A : Matrix ℝ) (tolerance : ℝ) :
    A.eigenvector 0 tolerance = .error "Power iteration did not converge" := rfl

/-- C10: for a non-square matrix and at least one permitted transition, the
solver fails with the `DimensionMismatch` error of `multiply_vector` (not a
`NotSquare` failure): the all-ones iterate has length `rows`, which
`multiply_vector` rejects against `cols` on the first transition. -/
theorem eigenvector_nonsquare (A : Matrix ℝ) (max_iters : ℕ) (tolerance : ℝ)
    (hsq : A.rows ≠ A.cols) (hit : 1 ≤ max_iters) :
    A.eigenvector max_iters tolerance = .error "Matrix and vector dimensions must match" := by
  obtain ⟨m, rfl⟩ : ∃ m, max_iters = m + 1 := ⟨max_iters - 1, by omega⟩
  have hmv : A.multiply_vector ⟨List.replicate A.rows 1⟩ =
      .error "Matrix and vector dimensions must match" := by
    simp only [Matrix.multiply_vector]
    rw [if_pos]
    show A.cols ≠ (List.replicate A.rows (1 : ℝ)).length
    rw [List.length_replicate]
    exact fun hcr => hsq hcr.symm
  simp only [Matrix.eigenvector, eigLoop]
  rw [hmv]

/-- The 2×2 case of the cofactor expansion, used to evaluate witnesses. -/
lemma calculate_determinant_two (f : ℕ → ℕ → α) :
    calculate_determinant 2 f = f 0 0 * f 1 1 - f 0 1 * f 1 0 := by
  show (∑ col ∈ Finset.range 2,
    (-1 : α) ^ col * f 0 col * calculate_determinant 1 (create_minor f 0 col)) = _
  rw [Finset.sum_range_succ, Finset.sum_range_one]
  show (-1 : α) ^ 0 * f 0 0 * create_minor f 0 0 0 0 +
    (-1 : α) ^ 1 * f 0 1 * create_minor f 0 1 0 0 = _
  simp [create_minor]
  ring

/-- The 2×2 matrix `[[1,2],[3,4]]` of the repository's tests. -/
def sampleA : Matrix ℚ := ⟨2, 2, fun i j => (([[1, 2], [3, 4]].getD i []).getD j 0 : ℚ)⟩

/-- The 2×2 matrix `[[2,0],[1,2]]` of the repository's tests. -/
def sampleB : Matrix ℚ := ⟨2, 2, fun i j => (([[2, 0], [1, 2]].getD i []).getD j 0 : ℚ)⟩

/-- The 2×2 matrix `[[4,7],[2,6]]` of the repository's tests. -/
def sampleInv : Matrix ℚ := ⟨2, 2, fun i j => (([[4, 7], [2, 6]].getD i []).getD j 0 : ℚ)⟩

/-- The 2×3 all-ones matrix, a non-square input. -/
def sampleWide : Matrix ℝ := ⟨2, 3, fun _ _ => 1⟩

/-- Witness for C2 at two concrete inputs: a 2×3 matrix has no determinant,
and a 1×1 matrix returns its single entry. -/
theorem determinant_spec_witness :
    ((⟨2, 3, fun _ _ => (1 : ℚ)⟩ : Matrix ℚ).determinant = none) ∧
    ((⟨1, 1, fun _ _ => (5 : ℚ)⟩ : Matrix ℚ).determinant = some 5) :=
  ⟨(determinant_spec _).1 (by decide),
   by
    have h := (determinant_spec (⟨1, 1, fun _ _ => (5 : ℚ)⟩ : Matrix ℚ)).2.1 rfl rfl
    simpa using h⟩

/-- Witness for C3 at `[[4,7],[2,6]]`, whose determinant is `10`. -/
theorem inverse_spec_witness :
    calculate_determinant sampleInv.rows sampleInv.entry ≠ 0 ∧
    ∃ B, sampleInv.inverse = .ok B := by
  have hdet : calculate_determinant sampleInv.rows sampleInv.entry ≠ 0 := by
    show calculate_determinant 2 sampleInv.entry ≠ 0
    rw [calculate_determinant_two]
    norm_num [sampleInv]
  refine ⟨hdet, ?_⟩
  obtain ⟨B, hB, -, -, -, -⟩ := (inverse_spec sampleInv).2.2 rfl hdet
  exact ⟨B, hB⟩

/-- Witness for C4 at `[[1,2],[3,4]]`: the square input succeeds. -/
theorem lu_decomposition_spec_witness :
    sampleA.rows = sampleA.cols ∧ ∃ LU, sampleA.lu_decomposition = .ok LU := by
  refine ⟨rfl, ?_⟩
  obtain ⟨L, U, hok, -⟩ := (lu_decomposition_spec sampleA).2 rfl
  exact ⟨(L, U), hok⟩

/-- Witness for C5 at `[1,2,3] + [4,5,6]`, first component `5`. -/
theorem vector_add_spec_witness :
    (Vector.add (⟨[1, 2, 3]⟩ : Vector ℚ) ⟨[4, 5, 6]⟩).data.length =
      min ((⟨[1, 2, 3]⟩ : Vector ℚ)).data.length ((⟨[4, 5, 6]⟩ : Vector ℚ)).data.length ∧
    (Vector.add (⟨[1, 2, 3]⟩ : Vector ℚ) ⟨[4, 5, 6]⟩).data.getD 0 0 =
      ((⟨[1, 2, 3]⟩ : Vector ℚ)).data.getD 0 0 + ((⟨[4, 5, 6]⟩ : Vector ℚ)).data.getD 0 0 :=
  ⟨(vector_add_spec _ _).1, (vector_add_spec _ _).2 0 (by simp [Vector.add])⟩

/-- Witness for C6 at the tests' product `[[1,2],[3,4]]·[[2,0],[1,2]]`, whose
cell `[1,0]` is `10`. -/
theorem multiply_spec_witness :
    sampleA.cols = sampleB.rows ∧
    ∃ C, sampleA.multiply sampleB = .ok C ∧ C.entry 1 0 = 10 := by
  refine ⟨rfl, ?_⟩
  obtain ⟨C, hok, -, -, hcell, -⟩ := (multiply_spec sampleA sampleB).2 rfl
  refine ⟨C, hok, ?_⟩
  rw [hcell 1 0 (by decide) (by decide)]
  show (∑ k ∈ Finset.range 2, sampleA.entry 1 k * sampleB.entry k 0) = 10
  rw [Finset.sum_range_succ, Finset.sum_range_one]
  norm_num [sampleA, sampleB]

/-- Witness for C7 at `[3,4]`: both components are divided by the
magnitude. -/
theorem normalize_spec_witness :
    (⟨[3, 4]⟩ : Vector ℝ).normalize.data.getD 0 0 =
      3 / Vector.magnitude ⟨[3, 4]⟩ ∧
    (⟨[3, 4]⟩ : Vector ℝ).normalize.data.getD 1 0 =
      4 / Vector.magnitude ⟨[3, 4]⟩ := by
  have h := (normalize_spec (⟨[3, 4]⟩ : Vector ℝ)).2.1
  constructor
  · simpa using h 0 (by simp)
  · simpa using h 1 (by simp)

/-- Witness for C8 at the tests' matrix `[[1,-2],[-3,4]]`. -/
theorem infinity_norm_spec_witness :
    0 < sampleA.rows ∧
    ((∃ i, i < sampleA.rows ∧ sampleA.infinity_norm = sampleA.rowAbsSum i) ∧
      (∀ i, i < sampleA.rows → sampleA.rowAbsSum i ≤ sampleA.infinity_norm)) :=
  ⟨by decide, (infinity_norm_spec sampleA).2 (by decide)⟩

/-- Witness for C10 at a 2×3 all-ones matrix with one permitted iteration. -/
theorem eigenvector_nonsquare_witness :
    sampleWide.rows ≠ sampleWide.cols ∧
    sampleWide.eigenvector 1 (1 / 2) = .error "Matrix and vector dimensions must match" :=
  ⟨by decide, eigenvector_nonsquare sampleWide 1 (1 / 2) (by decide) (by decide)⟩

end RLinAlg
